import Mathlib

/-
Verification of the backup store engine (src/backup/api.c, src/backup/indexr.c)
against its natural-language specification.

Shallow embedding conventions:
  * Byte strings are modelled as `List Char` (`Bytes`); all log content here is ASCII.
  * SHA-1 is modelled as an arbitrary function `hash : Bytes → String` (the lowercase
    hex digest); the claims concern WHICH bytes are hashed, not the SHA-1 algorithm.
  * The gzip codec is modelled by keeping, for every compressed member of the log
    file, both its raw (compressed) bytes and its decoded contents; the compressor
    used by the append writer is an arbitrary function `compress : Bytes → Bytes`.
  * Decoded member contents are well-formed transcripts: a header line
    "# cyrus backup: chunk start <ts>\r\n" followed by command lines
    "<ts> <cmd> <dlist>\r\n".  The dlist payload is opaque (spec: framed by CRLF,
    otherwise external); parsing and re-serialisation of a dlist are modelled as
    the identity on the payload bytes, and `ucase(dl->name)` as a no-op.
  * The sqlite index is a record of tables; the named transaction "backup_index"
    is modelled as an optional snapshot taken by `sqldb_begin` and restored by
    `sqldb_rollback`.
  * `backup_index` (the index-side interpretation of an APPLY command, file
    backup/indexw.c, not part of the sources here) is modelled as an arbitrary
    function `applyIndex` acting on the mailbox/message tables only.
-/

namespace CyrusBackup

abbrev Bytes := List Char

def strB (s : String) : Bytes := s.data

/-! ## Index data model (schema of §3, columns the claims need;
    the remaining replicated mailbox metadata columns are abstracted
    into the opaque `meta` field) -/

structure Chunk where
  id : Nat
  timestamp : Int
  offset : Nat
  length : Option Nat
  file_sha1 : String
  data_sha1 : Option String
deriving DecidableEq

structure Mailbox where
  id : Nat
  last_chunk_id : Nat
  uniqueid : String
  mboxname : String
  meta : String
  deleted : Bool
deriving DecidableEq

structure Message where
  id : Nat
  guid : String
  partition : String
  chunk_id : Nat
  offset : Nat
  length : Nat
deriving DecidableEq

structure MailboxMessage where
  id : Nat
  mailbox_id : Nat
  message_id : Nat
  last_chunk_id : Nat
  uid : Nat
  expunged : Bool
deriving DecidableEq

structure MailState where
  mailboxes : List Mailbox
  messages : List Message
  mailbox_messages : List MailboxMessage
deriving DecidableEq

structure IndexDB where
  chunks : List Chunk
  mail : MailState
deriving DecidableEq

def emptyDB : IndexDB := ⟨[], ⟨[], [], []⟩⟩

/-- The sqlite handle: current contents plus the optional snapshot taken by the
named transaction "backup_index". -/
structure Db where
  cur : IndexDB
  snapshot : Option IndexDB
deriving DecidableEq

def sqldb_begin (d : Db) : Db := ⟨d.cur, some d.cur⟩

def sqldb_commit (d : Db) : Db := ⟨d.cur, none⟩

def sqldb_rollback (d : Db) : Db :=
  match d.snapshot with
  | some s => ⟨s, none⟩
  | none => d

/-! ## On-disk objects -/

/-- One line of a decoded member: "<ts> <cmd> <payload>\r\n". -/
structure LogLine where
  ts : Int
  cmd : String
  payload : Bytes
deriving DecidableEq

/-- The decoded contents of one member: the header line's timestamp and the
command lines that follow it. -/
structure MemberText where
  headerTs : Int
  lines : List LogLine
deriving DecidableEq

/-- One compressed member of the log file: its raw (compressed) bytes and its
decoded contents. -/
structure MemberFile where
  raw : Bytes
  text : MemberText
deriving DecidableEq

/-- The per-user files: the log (a concatenation of members, possibly followed
by trailing bytes that are not a decodable member), the index file
(`none` models a missing or zero-sized index), and the `<index>.old` file. -/
structure Fs where
  members : List MemberFile
  trailing : Bytes
  index : Option IndexDB
  oldIndex : Option IndexDB
deriving DecidableEq

def headerLine (ts : Int) : Bytes :=
  strB ("# cyrus backup: chunk start " ++ toString ts ++ "\r\n")

def lineBytes (l : LogLine) : Bytes :=
  strB (toString l.ts ++ " " ++ l.cmd ++ " ") ++ l.payload ++ strB "\r\n"

def linesBytes : List LogLine → Bytes
  | [] => []
  | l :: ls => lineBytes l ++ linesBytes ls

def decodedBytes (m : MemberText) : Bytes :=
  headerLine m.headerTs ++ linesBytes m.lines

def rawCat : List MemberFile → Bytes
  | [] => []
  | m :: ms => m.raw ++ rawCat ms

/-- The raw bytes of the log file. -/
def rawLog (f : Fs) : Bytes := rawCat f.members ++ f.trailing

/-! ## Index store operations -/

def maxChunkId (l : List Chunk) : Nat :=
  l.foldr (fun c m => max c.id m) 0

/-- Modelled from the spec: `backup_index_start_sql` (backup/sqlconsts.c, not in
src) inserts a chunk row with NULL length and data_sha1; the id is the sqlite
autoincrement rowid (one more than the greatest existing id), returned by
`sqldb_lastid`. -/
def insertChunk (d : IndexDB) (ts : Int) (offset : Nat) (fsha : String) :
    IndexDB × Nat :=
  let nid := maxChunkId d.chunks + 1
  (⟨d.chunks ++ [⟨nid, ts, offset, none, fsha, none⟩], d.mail⟩, nid)

/-- Modelled from the spec: `backup_index_end_sql` updates the chunk row with
the given id, setting its length and data_sha1. -/
def updateChunk (d : IndexDB) (i : Nat) (len : Nat) (sha : String) : IndexDB :=
  ⟨d.chunks.map (fun c =>
      if c.id = i then ⟨c.id, c.timestamp, c.offset, some len, c.file_sha1, some sha⟩ else c),
   d.mail⟩

/-- Modelled from the spec: `backup_index_backup_select_latest_sql` selects the
chunk row with the greatest id (§4.F: "select the row with the greatest id"). -/
def latestChunk (d : IndexDB) : Option Chunk :=
  d.chunks.foldl
    (fun acc c =>
      match acc with
      | none => some c
      | some a => if a.id < c.id then some c else some a)
    none

/-! ## The backup handle and the append session (api.c) -/

/-- `struct backup_append_state`: mode flags, byte counter, SHA-1 context
(modelled as the accumulated bytes fed to `SHA1_Update`), and the id of the
chunk row inserted at session start. -/
structure AppendState where
  index_id : Nat
  wrote : Nat
  sha_bytes : Bytes
  index_only : Bool
  noflush : Bool
deriving DecidableEq

/-- `struct backup`: the handle owns the files, the sqlite handle, the optional
append session, the member currently being written by the gzip writer
(`gzfile`, present only for a non-index-only session), and whether
`oldindex_fname` was recorded (REINDEX open). -/
structure BackupH where
  fs : Fs
  db : Db
  append_state : Option AppendState
  pending : Option MemberText
  oldindex : Bool
deriving DecidableEq

variable (hash : Bytes → String) (compress : Bytes → Bytes)
variable (applyIndex : MailState → Nat → Bytes → Nat → Nat → MailState)

/-- `_append_start` (api.c:808): refuse a double start; write and hash the
header line (written to the gzip writer only when not index-only); open the
"backup_index" transaction; insert the chunk row with NULL length/data_sha1 and
remember its id. -/
def _append_start (b : BackupH) (ts : Int) (offset : Nat) (file_sha1 : String)
    (index_only noflush : Bool) : Except String BackupH :=
  if b.append_state.isSome then .error "backup append already started"
  else
    let hdr := headerLine ts
    let pending := if index_only then b.pending else some ⟨ts, []⟩
    let db1 := sqldb_begin b.db
    let ins := insertChunk db1.cur ts offset file_sha1
    .ok ⟨b.fs, ⟨ins.1, db1.snapshot⟩,
         some ⟨ins.2, hdr.length, hdr, index_only, noflush⟩, pending, b.oldindex⟩

/-- `backup_append_start` (api.c:870): offset is the end of the log file,
file_sha1 the hash of the whole existing log; `time(0)` is passed in as `now`. -/
def backup_append_start (b : BackupH) (now : Int) : Except String BackupH :=
  _append_start b now (rawLog b.fs).length (hash (rawLog b.fs)) false false

/-- `backup_append` (api.c:880): serialise "<ts> APPLY <dlist>\r\n", feed it to
the SHA-1 context and (unless index-only) to the gzip writer, count the bytes,
then update the index via `backup_index` (modelled by `applyIndex`, which gets
the chunk id, the payload, and the start offset / length of the written line). -/
def backup_append (b : BackupH) (payload : Bytes) (ts : Int) :
    Except String BackupH :=
  match b.append_state with
  | none => .error "backup append not started"
  | some st =>
    let line := lineBytes ⟨ts, "APPLY", payload⟩
    let pending := if st.index_only then b.pending
      else b.pending.map (fun m => ⟨m.headerTs, m.lines ++ [⟨ts, "APPLY", payload⟩]⟩)
    .ok ⟨b.fs,
         ⟨⟨b.db.cur.chunks, applyIndex b.db.cur.mail st.index_id payload st.wrote line.length⟩,
          b.db.snapshot⟩,
         some ⟨st.index_id, st.wrote + line.length, st.sha_bytes ++ line,
               st.index_only, st.noflush⟩,
         pending, b.oldindex⟩

/-- `backup_append_end` (api.c:950): finalise the gzip writer (the pending
member becomes a member of the log file, unless index-only), finalise the SHA-1
into data_sha1, update the chunk row with (length := wrote, data_sha1), and
commit the "backup_index" transaction. -/
def backup_append_end (b : BackupH) : Except String BackupH :=
  match b.append_state with
  | none => .error "backup append not started"
  | some st =>
    let fs := if st.index_only then b.fs
      else match b.pending with
        | some m => ⟨b.fs.members ++ [⟨compress (decodedBytes m), m⟩],
                     b.fs.trailing, b.fs.index, b.fs.oldIndex⟩
        | none => b.fs
    .ok ⟨fs,
         sqldb_commit ⟨updateChunk b.db.cur st.index_id st.wrote (hash st.sha_bytes),
                       b.db.snapshot⟩,
         none, none, b.oldindex⟩

/-- `backup_append_abort` (api.c:994): roll back the "backup_index"
transaction.  The log is not truncated (the TODO in the source), so the bytes
the writer already flushed for the aborted member stay in the file as trailing,
unindexed bytes. -/
def backup_append_abort (b : BackupH) : Except String BackupH :=
  match b.append_state with
  | none => .error "backup append not started"
  | some _ =>
    let fs := match b.pending with
      | some m => ⟨b.fs.members, b.fs.trailing ++ compress (decodedBytes m),
                   b.fs.index, b.fs.oldIndex⟩
      | none => b.fs
    .ok ⟨fs, sqldb_rollback b.db, none, none, b.oldindex⟩

/-! ## Open / validate / close (api.c) -/

inductive OpenMode where
  | normal
  | reindex
deriving DecidableEq

/-- `_open_internal` (api.c:95): open/create and lock the log file; in REINDEX
mode rename the index to `<index>.old` (a missing index leaves the old file
alone, ENOENT is ignored) and open a fresh empty index; in NORMAL mode refuse
to open when the log is non-empty but the index is missing or zero-sized
(`none` in the model), else open the existing index. -/
def _open_internal (f : Fs) (mode : OpenMode) : Option BackupH :=
  match mode with
  | .reindex =>
    let f1 : Fs := match f.index with
      | some i => ⟨f.members, f.trailing, none, some i⟩
      | none => f
    some ⟨f1, ⟨emptyDB, none⟩, none, none, true⟩
  | .normal =>
    if rawLog f ≠ [] ∧ f.index = none then none
    else some ⟨f, ⟨f.index.getD emptyDB, none⟩, none, none, false⟩

/-- Locate the member starting at the given raw byte offset and return its
decoded bytes (`gzuc_member_start_from` + the read loop); `none` when the
offset is not a member boundary. -/
def decodedAt : List MemberFile → Nat → Option Bytes
  | [], _ => none
  | mf :: ms, off =>
    if off = 0 then some (decodedBytes mf.text)
    else if mf.raw.length ≤ off then decodedAt ms (off - mf.raw.length)
    else none

/-- `_validate_checksums` (api.c:197), as a Bool (`true` = checksums passed):
select the chunk row with the greatest id (no row means failure); compare its
file_sha1 with the hash of the raw log bytes before its offset; stream-decode
the member at its offset, counting and hashing the decoded bytes, and compare
the count with length and the hash with data_sha1. -/
def _validate_checksums (b : BackupH) : Bool :=
  match latestChunk b.db.cur with
  | none => false
  | some c =>
    if c.file_sha1 ≠ hash ((rawLog b.fs).take c.offset) then false
    else match decodedAt b.fs.members c.offset with
      | none => false
      | some data =>
        if ¬ (c.length = some data.length) then false
        else c.data_sha1 = some (hash data)

/-- `backup_open` (api.c:265): resolve the user's paths (abstracted away; the
claims do not involve the path directory), `_open_internal` in NORMAL mode,
then `_validate_checksums`; on mismatch the handle is closed and nothing is
returned. -/
def backup_open (f : Fs) : Option BackupH :=
  match _open_internal f .normal with
  | none => none
  | some b => if _validate_checksums hash b then some b else none

/-- `backup_open_paths` (api.c:431): with an explicit index path the result of
`_open_internal` is returned directly; only when the index path is derived from
the data path (NULL argument) are the checksums validated. -/
def backup_open_paths (f : Fs) (index_given : Bool) : Option BackupH :=
  if index_given then _open_internal f .normal
  else backup_open hash f

/-- `backup_close` (api.c:449): end a still-open append session, close the
index db (`closeOk` tells whether `sqldb_close` succeeded), and only if that
close FAILED and an `oldindex_fname` was recorded rename `<index>.old` back
over the index.  The `.old` file is never deleted. -/
def backup_close (b : BackupH) (closeOk : Bool) : Fs :=
  let b1 := match b.append_state with
    | some _ =>
      match backup_append_end hash compress b with
      | .ok b2 => b2
      | .error _ => b
    | none => b
  if closeOk then
    ⟨b1.fs.members, b1.fs.trailing, some b1.db.cur, b1.fs.oldIndex⟩
  else if b1.oldindex then
    match b1.fs.oldIndex with
    | some o => ⟨b1.fs.members, b1.fs.trailing, some o, none⟩
    | none => ⟨b1.fs.members, b1.fs.trailing, some b1.db.cur, none⟩
  else
    ⟨b1.fs.members, b1.fs.trailing, some b1.db.cur, b1.fs.oldIndex⟩

/-! ## Reindex (api.c:1070) -/

/-- One iteration of the inner line loop of `backup_reindex`, after the
member's first line fixed `member_ts`: a line older than `member_ts` is a fatal
data error; a non-APPLY line is skipped (`continue`); an APPLY line goes
through `backup_append`. -/
def reindexLine (b : BackupH) (member_ts : Int) (l : LogLine) :
    Except String BackupH :=
  if member_ts > l.ts then .error "line timestamp older than previous"
  else if l.cmd = "APPLY" then backup_append applyIndex b l.payload l.ts
  else .ok b

def reindexLines (b : BackupH) (member_ts : Int) :
    List LogLine → Except String BackupH
  | [] => .ok b
  | l :: ls => do
    let b1 ← reindexLine applyIndex b member_ts l
    reindexLines b1 member_ts ls

/-- The processing of one member by `backup_reindex`: `_parse_line` skips the
"#" header line, so the member's first command line supplies `member_ts`; the
previous member's `member_ts` must not be newer; `_append_start` runs
index-only with the hash of the raw log before the member; each line then goes
through `reindexLine`; member EOF triggers `backup_append_end`.  A member whose
decoded contents contain no command line reaches `backup_append_end` without a
session, which is fatal. -/
def reindexMember (prevTs : Option Int) (b : BackupH) (offset : Nat)
    (m : MemberText) : Except String (BackupH × Int) :=
  match m.lines with
  | [] => .error "backup append not started"
  | l0 :: rest =>
    let go : Except String (BackupH × Int) := do
      let b1 ← _append_start b l0.ts offset (hash ((rawLog b.fs).take offset)) true false
      let b3 ← reindexLines applyIndex b1 l0.ts (l0 :: rest)
      let b4 ← backup_append_end hash compress b3
      pure (b4, l0.ts)
    match prevTs with
    | some p => if p > l0.ts then .error "member timestamp older than previous" else go
    | none => go

def reindexMembers :
    BackupH → Option Int → Nat → List MemberFile → Except String BackupH
  | b, _, _, [] => .ok b
  | b, prev, off, mf :: rest => do
    let r ← reindexMember hash compress applyIndex prev b off mf.text
    reindexMembers r.1 (some r.2) (off + mf.raw.length) rest

/-- `backup_reindex` (api.c:1070): `_open_internal` in REINDEX mode (moving the
old index to `<index>.old`), then iterate the members of the log, and close. -/
def backup_reindex (f : Fs) (closeOk : Bool) : Except String Fs :=
  match _open_internal f .reindex with
  | none => .error "open failed"
  | some b => do
    let b1 ← reindexMembers hash compress applyIndex b none 0 b.fs.members
    pure (backup_close hash compress b1 closeOk)

/-! ## Readers (indexr.c) -/

/-- `backup_chunk_list_add` (indexr.c:699): "n.b. always inserts at head". -/
def backup_chunk_list_add (list : List Chunk) (chunk : Chunk) : List Chunk :=
  chunk :: list

def insertById (c : Chunk) : List Chunk → List Chunk
  | [] => [c]
  | d :: ds => if c.id ≤ d.id then c :: d :: ds else d :: insertById c ds

def sortById (l : List Chunk) : List Chunk := l.foldr insertById []

/-- Modelled from the spec: the SQL constants (backup/sqlconsts.c) are not in
src; §4.H gives the select-all chunk query as returning the chunk rows ordered
by id, i.e. ascending. -/
def chunkRowsAsc (d : IndexDB) : List Chunk := sortById d.chunks

/-- `backup_get_chunks` (indexr.c:768): run the select-all query and collect
each delivered row with `backup_chunk_list_add`. -/
def backup_get_chunks (d : IndexDB) : List Chunk :=
  (chunkRowsAsc d).foldl backup_chunk_list_add []

/-- `struct backup_message` as filled in by `_get_message_cb`; `guid = none`
models the NULL pointer of the zeroed struct. -/
structure BackupMessage where
  id : Nat
  guid : Option String
  partition : String
  chunk_id : Nat
  offset : Nat
  length : Nat
deriving DecidableEq

def zeroMessage : BackupMessage := ⟨0, none, "", 0, 0, 0⟩

/-- Modelled from the spec: `backup_index_message_select_guid_sql` delivers the
message rows whose guid equals the bound value. -/
def messageRows (d : IndexDB) (guid : String) : List Message :=
  d.mail.messages.filter (fun m => m.guid = guid)

/-- `backup_get_message_id` (indexr.c:573): `id` starts at -1 and each
delivered row overwrites it; a failed query (modelled by `Except.error`) only
logs and returns the same `id`. -/
def backup_get_message_id (res : Except Unit IndexDB) (guid : String) : Int :=
  match res with
  | .error _ => -1
  | .ok d => (messageRows d guid).foldl (fun _ m => (m.id : Int)) (-1)

def fillMessage (_bm : BackupMessage) (m : Message) : BackupMessage :=
  ⟨m.id, some m.guid, m.partition, m.chunk_id, m.offset, m.length⟩

/-- `backup_get_message` (indexr.c:615): a zeroed struct is allocated, each
delivered row fills it, and it is returned even when no row matched; only a
failed query frees it and returns NULL (`none`). -/
def backup_get_message (res : Except Unit IndexDB) (guid : String) :
    Option BackupMessage :=
  match res with
  | .error _ => none
  | .ok d => some ((messageRows d guid).foldl fillMessage zeroMessage)

/-- `backup_mailbox_foreach` (indexr.c:367): `chunk_id` zero selects the
select-all query, otherwise the chunkid-filtered query (Modelled from the spec:
the two SQL constants filter on `last_chunk_id` or select every row). -/
def backup_mailbox_foreach (d : IndexDB) (chunk_id : Nat) : List Mailbox :=
  if chunk_id ≠ 0 then d.mail.mailboxes.filter (fun mb => mb.last_chunk_id = chunk_id)
  else d.mail.mailboxes

/-- `backup_get_mailboxes` (indexr.c:390): same query selection; rows are
collected with the tail-appending `backup_mailbox_list_add`, preserving order. -/
def backup_get_mailboxes (d : IndexDB) (chunk_id : Nat) : List Mailbox :=
  if chunk_id ≠ 0 then d.mail.mailboxes.filter (fun mb => mb.last_chunk_id = chunk_id)
  else d.mail.mailboxes

/-- `backup_get_mailbox_messages` (indexr.c:262): `chunk_id` zero selects the
select-all query, otherwise the `last_chunk_id`-filtered query. -/
def backup_get_mailbox_messages (d : IndexDB) (chunk_id : Nat) :
    List MailboxMessage :=
  if chunk_id ≠ 0 then
    d.mail.mailbox_messages.filter (fun mm => mm.last_chunk_id = chunk_id)
  else d.mail.mailbox_messages

/-- `backup_message_foreach` (indexr.c:682): `chunk_id` zero selects the
select-all query, otherwise the `chunk_id`-filtered query. -/
def backup_message_foreach (d : IndexDB) (chunk_id : Nat) : List Message :=
  if chunk_id ≠ 0 then d.mail.messages.filter (fun m => m.chunk_id = chunk_id)
  else d.mail.messages

/-- A sequence of `backup_append` calls within one session. -/
def appendMany (b : BackupH) : List (Bytes × Int) → Except String BackupH
  | [] => .ok b
  | x :: xs => do
    let b1 ← backup_append applyIndex b x.1 x.2
    appendMany b1 xs

/-- The bytes of the APPLY lines of a line list, as re-serialised and counted
by the reindex line loop (non-APPLY lines contribute nothing). -/
def applyBytes : List LogLine → Bytes
  | [] => []
  | l :: ls =>
    (if l.cmd = "APPLY" then lineBytes ⟨l.ts, "APPLY", l.payload⟩ else []) ++ applyBytes ls

/-- The cumulative effect of the reindex line loop on the mailbox/message
tables: each APPLY line is handed to `applyIndex` with the running byte
offset and the serialised line length. -/
def mailFold (cid : Nat) : MailState → Nat → List LogLine → MailState
  | ms, _, [] => ms
  | ms, w, l :: ls =>
    if l.cmd = "APPLY" then
      mailFold cid (applyIndex ms cid l.payload w (lineBytes ⟨l.ts, "APPLY", l.payload⟩).length)
        (w + (lineBytes ⟨l.ts, "APPLY", l.payload⟩).length) ls
    else mailFold cid ms w ls

/-! ## Concrete instances used by witnesses and counterexamples -/

/-- A concrete stand-in for the SHA-1 hex digest (injective on the inputs used). -/
def hashC : Bytes → String := fun b => "h:" ++ String.mk b

/-- A concrete stand-in for the gzip compressor. -/
def compressC : Bytes → Bytes := fun b => 'Z' :: b

/-- A concrete stand-in for the index-side APPLY interpretation. -/
def applyC : MailState → Nat → Bytes → Nat → Nat → MailState :=
  fun ms _ _ _ _ => ms

/-- A chunk row whose stored checksums match nothing. -/
def cW : Chunk := ⟨1, 5, 0, some 3, "bogusF", some "bogusD"⟩

def db1 : IndexDB := ⟨[cW], ⟨[], [], []⟩⟩

def m1 : MemberText := ⟨5, [⟨5, "APPLY", strB "(m)"⟩]⟩

/-- A store with one member and an index whose only chunk row has wrong checksums. -/
def f1 : Fs := ⟨[⟨strB "RAW", m1⟩], [], some db1, none⟩

/-- The handle `_open_internal` produces for `f1` in NORMAL mode. -/
def bE : BackupH := ⟨f1, ⟨db1, none⟩, none, none, false⟩

/-- A member containing a non-APPLY command line. -/
def m2 : MemberText := ⟨5, [⟨5, "NOOP", strB "(x)"⟩]⟩

def f2 : Fs := ⟨[⟨strB "R2", m2⟩], [], none, none⟩

/-- A member whose third line (ts 7) is older than its second (ts 10) but not
older than its first (ts 5). -/
def m6 : MemberText :=
  ⟨5, [⟨5, "APPLY", strB "(a)"⟩, ⟨10, "APPLY", strB "(b)"⟩, ⟨7, "APPLY", strB "(c)"⟩]⟩

def f6 : Fs := ⟨[⟨strB "R6", m6⟩], [], none, none⟩

/-- Like `f6` but with an existing index file, so that a reindex moves it to
`<index>.old`. -/
def f7 : Fs := ⟨[⟨strB "R6", m6⟩], [], some db1, none⟩

def chunkRow1 : Chunk := ⟨1, 5, 0, some 3, "f1", some "d1"⟩

def chunkRow2 : Chunk := ⟨2, 6, 10, some 4, "f2", some "d2"⟩

def db8 : IndexDB := ⟨[chunkRow1, chunkRow2], ⟨[], [], []⟩⟩

/-- An index holding one message row, with a guid different from "gX". -/
def db9 : IndexDB := ⟨[], ⟨[], [⟨7, "gOTHER", "p", 1, 0, 5⟩], []⟩⟩

/-- The one message row of db9. -/
def msgRow : Message := ⟨7, "gOTHER", "p", 1, 0, 5⟩

/-- The handle `_open_internal` produces for `f7` in REINDEX mode: previous
index moved to `.old`, fresh empty db, oldindex recorded. -/
def bR : BackupH := ⟨⟨f7.members, [], none, some db1⟩, ⟨emptyDB, none⟩, none, none, true⟩

/-- A fresh store: empty log, empty index. -/
def freshFs : Fs := ⟨[], [], some emptyDB, none⟩

/-- The handle of a freshly opened empty store. -/
def b0fresh : BackupH := ⟨freshFs, ⟨emptyDB, none⟩, none, none, false⟩

/-- An index db with two mailboxes, one of them with last_chunk_id 0. -/
def db10 : IndexDB :=
  ⟨[], ⟨[⟨1, 0, "u1", "INBOX", "", false⟩, ⟨2, 1, "u2", "Sent", "", false⟩], [], []⟩⟩

/-- A handle with an open index-only append session, for exercising
`backup_append_end` directly. -/
def stW : AppendState := ⟨1, (headerLine 5).length, headerLine 5, true, false⟩

def bW : BackupH :=
  ⟨f2, ⟨⟨[⟨1, 5, 0, none, "fp", none⟩], ⟨[], [], []⟩⟩, some emptyDB⟩, some stW, none, false⟩

/-- The chunk rows of the index produced by a reindex run (empty on error or
when the run left no index). -/
def reindexedChunks (r : Except String Fs) : List Chunk :=
  match r with
  | .ok fs => (fs.index.getD emptyDB).chunks
  | .error _ => []

/-! ## Helper lemmas -/

theorem foldl_chunk_list_add (l acc : List Chunk) :
    l.foldl backup_chunk_list_add acc = l.reverse ++ acc := by
  induction l generalizing acc with
  | nil => simp
  | cons c cs ih =>
    simp [List.foldl_cons, backup_chunk_list_add, ih]

theorem mem_insertById {x c : Chunk} :
    ∀ {l : List Chunk}, x ∈ insertById c l → x = c ∨ x ∈ l := by
  intro l
  induction l with
  | nil =>
    intro h
    unfold insertById at h
    exact Or.inl (List.mem_singleton.mp h)
  | cons d ds ih =>
    intro h
    unfold insertById at h
    by_cases hc : c.id ≤ d.id
    · rw [if_pos hc] at h
      rcases List.mem_cons.mp h with h1 | h1
      · exact Or.inl h1
      · exact Or.inr h1
    · rw [if_neg hc] at h
      rcases List.mem_cons.mp h with h1 | h1
      · exact Or.inr (by rw [h1]; exact List.mem_cons_self _ _)
      · rcases ih h1 with h2 | h2
        · exact Or.inl h2
        · exact Or.inr (List.mem_cons_of_mem _ h2)

theorem pairwise_insertById {c : Chunk} :
    ∀ {l : List Chunk}, List.Pairwise (fun a b => a.id ≤ b.id) l →
      List.Pairwise (fun a b => a.id ≤ b.id) (insertById c l) := by
  intro l
  induction l with
  | nil => intro _; simp [insertById]
  | cons d ds ih =>
    intro h
    rcases List.pairwise_cons.mp h with ⟨hd, hds⟩
    unfold insertById
    by_cases hc : c.id ≤ d.id
    · rw [if_pos hc]
      refine List.pairwise_cons.mpr ⟨?_, h⟩
      intro x hx
      rcases List.mem_cons.mp hx with rfl | hx
      · exact hc
      · exact le_trans hc (hd x hx)
    · rw [if_neg hc]
      refine List.pairwise_cons.mpr ⟨?_, ih hds⟩
      intro x hx
      rcases mem_insertById hx with rfl | hx
      · exact le_of_not_le hc
      · exact hd x hx

theorem sorted_sortById (l : List Chunk) :
    List.Pairwise (fun a b => a.id ≤ b.id) (sortById l) := by
  induction l with
  | nil => simp [sortById]
  | cons c cs ih => exact pairwise_insertById ih

theorem le_maxChunkId {l : List Chunk} {c : Chunk} (h : c ∈ l) :
    c.id ≤ maxChunkId l := by
  induction l with
  | nil => cases h
  | cons d ds ih =>
    rcases List.mem_cons.mp h with rfl | h
    · exact le_max_left _ _
    · exact le_trans (ih h) (le_max_right _ _)

theorem map_update_id (l : List Chunk) (i : Nat) (len : Nat) (sha : String)
    (h : ∀ c ∈ l, c.id ≠ i) :
    l.map (fun c =>
      if c.id = i then
        (⟨c.id, c.timestamp, c.offset, some len, c.file_sha1, some sha⟩ : Chunk)
      else c) = l := by
  induction l with
  | nil => rfl
  | cons d ds ih =>
    simp only [List.map_cons]
    rw [if_neg (h d (List.mem_cons_self d ds)),
        ih (fun c hc => h c (List.mem_cons_of_mem _ hc))]

theorem updateChunk_append (l : List Chunk) (ms : MailState) (i : Nat) (ts : Int)
    (off : Nat) (fsha : String) (len : Nat) (sha : String) (h : ∀ c ∈ l, c.id ≠ i) :
    updateChunk ⟨l ++ [⟨i, ts, off, none, fsha, none⟩], ms⟩ i len sha =
      ⟨l ++ [⟨i, ts, off, some len, fsha, some sha⟩], ms⟩ := by
  unfold updateChunk
  simp only [List.map_append, List.map_cons, List.map_nil]
  rw [map_update_id l i len sha h]
  simp

theorem bind_ok {A B : Type} (a : A) (f : A → Except String B) :
    (Except.ok a : Except String A) >>= f = f a := rfl

theorem reindexLines_cons (b : BackupH) (mts : Int) (l : LogLine) (ls : List LogLine) :
    reindexLines applyIndex b mts (l :: ls) =
      reindexLine applyIndex b mts l >>= fun b1 => reindexLines applyIndex b1 mts ls := rfl

theorem reindexLines_ok (mts : Int) :
    ∀ (ls : List LogLine) (b : BackupH) (st : AppendState),
      b.append_state = some st → st.index_only = true →
      (∀ l ∈ ls, mts ≤ l.ts) →
      reindexLines applyIndex b mts ls =
        .ok ⟨b.fs,
             ⟨⟨b.db.cur.chunks, mailFold applyIndex st.index_id b.db.cur.mail st.wrote ls⟩,
              b.db.snapshot⟩,
             some ⟨st.index_id, st.wrote + (applyBytes ls).length,
                   st.sha_bytes ++ applyBytes ls, true, st.noflush⟩,
             b.pending, b.oldindex⟩ := by
  intro ls
  induction ls with
  | nil =>
    intro b st h hio hm
    cases b with
    | mk fs db ast pending old =>
      cases db with
      | mk cur snap =>
        cases cur with
        | mk chunks mail =>
          cases st with
          | mk iid w sb io nf =>
            simp only at h
            subst h
            simp only at hio
            subst hio
            simp [reindexLines, applyBytes, mailFold]
  | cons l ls ih =>
    intro b st h hio hm
    have hts : ¬ mts > l.ts := not_lt.mpr (hm l (List.mem_cons_self _ _))
    cases b with
    | mk fs db ast pending old =>
      cases db with
      | mk cur snap =>
        cases cur with
        | mk chunks mail =>
          cases st with
          | mk iid w sb io nf =>
            simp only at h
            subst h
            simp only at hio
            subst hio
            rw [reindexLines_cons]
            by_cases hc : l.cmd = "APPLY"
            · have hstep :
                  reindexLine applyIndex
                    ⟨fs, ⟨⟨chunks, mail⟩, snap⟩, some ⟨iid, w, sb, true, nf⟩, pending, old⟩
                    mts l =
                  .ok ⟨fs,
                       ⟨⟨chunks,
                         applyIndex mail iid l.payload w
                           (lineBytes ⟨l.ts, "APPLY", l.payload⟩).length⟩, snap⟩,
                       some ⟨iid, w + (lineBytes ⟨l.ts, "APPLY", l.payload⟩).length,
                             sb ++ lineBytes ⟨l.ts, "APPLY", l.payload⟩, true, nf⟩,
                       pending, old⟩ := by
                unfold reindexLine
                rw [if_neg hts, if_pos hc]
                rfl
              rw [hstep, bind_ok,
                  ih _ _ rfl rfl (fun x hx => hm x (List.mem_cons_of_mem _ hx))]
              simp [mailFold, applyBytes, hc, Nat.add_assoc, List.append_assoc]
            · have hstep :
                  reindexLine applyIndex
                    ⟨fs, ⟨⟨chunks, mail⟩, snap⟩, some ⟨iid, w, sb, true, nf⟩, pending, old⟩
                    mts l =
                  .ok ⟨fs, ⟨⟨chunks, mail⟩, snap⟩, some ⟨iid, w, sb, true, nf⟩, pending, old⟩ := by
                unfold reindexLine
                rw [if_neg hts, if_neg hc]
              rw [hstep, bind_ok,
                  ih _ _ rfl rfl (fun x hx => hm x (List.mem_cons_of_mem _ hx))]
              simp [mailFold, applyBytes, hc]

theorem reindexLines_err (mts : Int) (bad : LogLine) (hbad : bad.ts < mts)
    (tl : List LogLine) :
    ∀ (g : List LogLine) (b : BackupH) (st : AppendState),
      b.append_state = some st → st.index_only = true → (∀ l ∈ g, mts ≤ l.ts) →
      reindexLines applyIndex b mts (g ++ bad :: tl) =
        .error "line timestamp older than previous" := by
  intro g
  induction g with
  | nil =>
    intro b st h hio hm
    have hts : mts > bad.ts := hbad
    rw [List.nil_append, reindexLines_cons]
    unfold reindexLine
    rw [if_pos hts]
    rfl
  | cons l g ih =>
    intro b st h hio hm
    have hone := reindexLines_ok applyIndex mts [l] b st h hio
      (fun x hx => by
        rcases List.mem_singleton.mp hx with rfl
        exact hm x (List.mem_cons_self _ _))
    rw [reindexLines_cons] at hone
    rw [List.cons_append, reindexLines_cons]
    cases hline : reindexLine applyIndex b mts l with
    | error e =>
      rw [hline] at hone
      exact absurd hone (by simp [Bind.bind, Except.bind])
    | ok b1 =>
      rw [hline, bind_ok] at hone
      rw [show reindexLines applyIndex b1 mts [] = Except.ok b1 from rfl] at hone
      rw [bind_ok]
      refine ih b1
        ⟨st.index_id, st.wrote + (applyBytes [l]).length,
         st.sha_bytes ++ applyBytes [l], true, st.noflush⟩
        ?_ rfl (fun x hx => hm x (List.mem_cons_of_mem _ hx))
      rw [Except.ok.inj hone]

theorem appendMany_ok :
    ∀ (xs : List (Bytes × Int)) (b : BackupH) (st : AppendState),
      b.append_state = some st →
      ∃ b1 st1, appendMany applyIndex b xs = .ok b1
        ∧ b1.append_state = some st1
        ∧ b1.db.snapshot = b.db.snapshot
        ∧ b1.fs = b.fs := by
  intro xs
  induction xs with
  | nil =>
    intro b st h
    exact ⟨b, st, rfl, h, rfl, rfl⟩
  | cons x xs ih =>
    intro b st h
    refine
      (fun (stN : AppendState) (bN : BackupH)
           (hstep : backup_append applyIndex b x.1 x.2 = .ok bN)
           (hsnapN : bN.db.snapshot = b.db.snapshot) (hfsN : bN.fs = b.fs)
           (hstN : bN.append_state = some stN) => ?_)
        ⟨st.index_id, st.wrote + (lineBytes ⟨x.2, "APPLY", x.1⟩).length,
         st.sha_bytes ++ lineBytes ⟨x.2, "APPLY", x.1⟩, st.index_only, st.noflush⟩
        ⟨b.fs,
         ⟨⟨b.db.cur.chunks,
           applyIndex b.db.cur.mail st.index_id x.1 st.wrote
             (lineBytes ⟨x.2, "APPLY", x.1⟩).length⟩,
          b.db.snapshot⟩,
         some ⟨st.index_id, st.wrote + (lineBytes ⟨x.2, "APPLY", x.1⟩).length,
               st.sha_bytes ++ lineBytes ⟨x.2, "APPLY", x.1⟩, st.index_only, st.noflush⟩,
         (if st.index_only then b.pending
          else b.pending.map (fun m => ⟨m.headerTs, m.lines ++ [⟨x.2, "APPLY", x.1⟩]⟩)),
         b.oldindex⟩
        (by unfold backup_append; rw [h]) rfl rfl rfl
    rcases ih bN stN hstN with ⟨b1, st1, hrun, hst1, hsnap, hfs⟩
    refine ⟨b1, st1, ?_, hst1, ?_, ?_⟩
    · rw [show appendMany applyIndex b (x :: xs) =
            (backup_append applyIndex b x.1 x.2).bind
              (fun b2 => appendMany applyIndex b2 xs) from rfl, hstep]
      exact hrun
    · rw [hsnap, hsnapN]
    · rw [hfs, hfsN]


/-! ## Claim theorems -/

/-- C5: in NORMAL mode, `_open_internal` refuses to open a store whose log is
non-empty while its index file is missing or zero-sized (reindex required, no
handle produced), and opens a store whose log is empty as a fresh store. -/
theorem c5_fresh_or_reindex_needed (f : Fs) :
    (rawLog f ≠ [] → f.index = none → _open_internal f .normal = none)
  ∧ (rawLog f = [] →
      _open_internal f .normal =
        some ⟨f, ⟨f.index.getD emptyDB, none⟩, none, none, false⟩) := by
  constructor
  · intro h1 h2
    unfold _open_internal
    rw [if_pos ⟨h1, h2⟩]
  · intro h
    unfold _open_internal
    rw [if_neg (by simp [h])]

theorem c5_witness :
    (rawLog f2 ≠ [] ∧ f2.index = none ∧ _open_internal f2 .normal = none)
  ∧ (rawLog freshFs = [] ∧ _open_internal freshFs .normal =
      some ⟨freshFs, ⟨freshFs.index.getD emptyDB, none⟩, none, none, false⟩) :=
  ⟨⟨by decide, rfl, (c5_fresh_or_reindex_needed f2).1 (by decide) rfl⟩,
   ⟨rfl, (c5_fresh_or_reindex_needed freshFs).2 rfl⟩⟩

/-- C7 (amended): `backup_close` never deletes the `.old` index file: after a
close whose `sqldb_close` succeeds the `.old` file is untouched (and the index
file holds the db contents); only when closing the index db FAILS and an
oldindex name was recorded is `.old` renamed back over the index. -/
theorem c7_old_index_only_renamed_on_failed_close (hash : Bytes → String)
    (compress : Bytes → Bytes) (b : BackupH) (o : IndexDB)
    (hstate : b.append_state = none) (hold : b.fs.oldIndex = some o) :
    ((backup_close hash compress b true).oldIndex = some o
      ∧ (backup_close hash compress b true).index = some b.db.cur)
  ∧ (b.oldindex = true →
      (backup_close hash compress b false).index = some o
      ∧ (backup_close hash compress b false).oldIndex = none) := by
  constructor
  · constructor
    · simp [backup_close, hstate, hold]
    · simp [backup_close, hstate]
  · intro hb
    constructor
    · simp [backup_close, hstate, hb, hold]
    · simp [backup_close, hstate, hb, hold]

theorem c7_witness :
    (bR.append_state = none ∧ bR.fs.oldIndex = some db1 ∧ bR.oldindex = true)
  ∧ ((backup_close hashC compressC bR true).oldIndex = some db1
      ∧ (backup_close hashC compressC bR false).index = some db1
      ∧ (backup_close hashC compressC bR false).oldIndex = none) :=
  ⟨⟨rfl, rfl, rfl⟩,
   ⟨(c7_old_index_only_renamed_on_failed_close hashC compressC bR db1 rfl rfl).1.1,
    ((c7_old_index_only_renamed_on_failed_close hashC compressC bR db1 rfl rfl).2 rfl).1,
    ((c7_old_index_only_renamed_on_failed_close hashC compressC bR db1 rfl rfl).2 rfl).2⟩⟩

theorem c7_counterexample :
    (backup_reindex hashC compressC applyC f7 true).toOption.map Fs.oldIndex =
      some (some db1) := by
  decide

/-- C8 (amended): `backup_get_chunks` returns the chunk rows in DESCENDING id
order: the select-all query delivers them ascending by id, and
`backup_chunk_list_add` inserts every row at the head of the list, reversing
that order, so the first element has the greatest id. -/
theorem c8_get_chunks_descending (d : IndexDB) :
    backup_get_chunks d = (chunkRowsAsc d).reverse
    ∧ List.Pairwise (fun a b => b.id ≤ a.id) (backup_get_chunks d) := by
  have h1 : backup_get_chunks d = (chunkRowsAsc d).reverse := by
    unfold backup_get_chunks
    rw [foldl_chunk_list_add, List.append_nil]
  refine ⟨h1, ?_⟩
  rw [h1, List.pairwise_reverse]
  exact sorted_sortById d.chunks

theorem c8_counterexample :
    (backup_get_chunks db8).map (fun c => c.id) = [2, 1]
    ∧ chunkRow1 ∈ backup_get_chunks db8 ∧ chunkRow1.id = 1 := by
  refine ⟨rfl, ?_, rfl⟩
  decide

/-- C9 (amended): `backup_get_message` returns NULL only on a query error; for
a guid with no matching row it returns the zero-initialised message object
(guid pointer unset), and for a matching row the filled object.
`backup_get_message_id` returns -1 both when no row matches and when the query
errors, so a missing row is not distinguishable from an error there. -/
theorem c9_message_lookup_results (d : IndexDB) (guid : String) :
    (messageRows d guid = [] →
      backup_get_message (Except.ok d) guid = some zeroMessage
      ∧ backup_get_message_id (Except.ok d) guid = -1)
  ∧ backup_get_message (Except.error ()) guid = none
  ∧ backup_get_message_id (Except.error ()) guid = -1
  ∧ ∀ m, messageRows d guid = [m] →
      backup_get_message (Except.ok d) guid = some (fillMessage zeroMessage m)
      ∧ backup_get_message_id (Except.ok d) guid = (m.id : Int) := by
  refine ⟨?_, rfl, rfl, ?_⟩
  · intro h
    constructor
    · show some ((messageRows d guid).foldl fillMessage zeroMessage) = some zeroMessage
      rw [h]
      rfl
    · show (messageRows d guid).foldl (fun _ m => (m.id : Int)) (-1) = -1
      rw [h]
      rfl
  · intro m h
    constructor
    · show some ((messageRows d guid).foldl fillMessage zeroMessage) =
        some (fillMessage zeroMessage m)
      rw [h]
      rfl
    · show (messageRows d guid).foldl (fun _ m => (m.id : Int)) (-1) = (m.id : Int)
      rw [h]
      rfl

theorem c9_witness :
    (messageRows db9 "gX" = []
      ∧ backup_get_message (Except.ok db9) "gX" = some zeroMessage
      ∧ backup_get_message_id (Except.ok db9) "gX" = -1)
  ∧ (messageRows db9 "gOTHER" = [msgRow]
      ∧ backup_get_message (Except.ok db9) "gOTHER" = some (fillMessage zeroMessage msgRow)
      ∧ backup_get_message_id (Except.ok db9) "gOTHER" = (msgRow.id : Int)) :=
  ⟨⟨by decide, ((c9_message_lookup_results db9 "gX").1 (by decide)).1,
     ((c9_message_lookup_results db9 "gX").1 (by decide)).2⟩,
   ⟨by decide, ((c9_message_lookup_results db9 "gOTHER").2.2.2 msgRow (by decide)).1,
     ((c9_message_lookup_results db9 "gOTHER").2.2.2 msgRow (by decide)).2⟩⟩

theorem c9_counterexample :
    backup_get_message_id (Except.ok db9) "gX" = backup_get_message_id (Except.error ()) "gX"
    ∧ backup_get_message (Except.ok db9) "gX" = some zeroMessage := by
  constructor
  · rfl
  · rfl

/-- C10: a `chunk_id` argument of 0 selects the select-all query in
`backup_mailbox_foreach`, `backup_get_mailboxes`, `backup_get_mailbox_messages`
and `backup_message_foreach`, so every row is visited/returned regardless of
its (last_)chunk_id; a non-zero argument selects the filtered query, hence no
call can restrict to rows whose chunk id is literally 0. -/
theorem c10_chunk_id_zero_selects_all (d : IndexDB) :
    backup_mailbox_foreach d 0 = d.mail.mailboxes
  ∧ backup_get_mailboxes d 0 = d.mail.mailboxes
  ∧ backup_get_mailbox_messages d 0 = d.mail.mailbox_messages
  ∧ backup_message_foreach d 0 = d.mail.messages
  ∧ ∀ c : Nat, c ≠ 0 →
      backup_mailbox_foreach d c =
        d.mail.mailboxes.filter (fun mb => mb.last_chunk_id = c) := by
  refine ⟨rfl, rfl, rfl, rfl, ?_⟩
  intro c hc
  unfold backup_mailbox_foreach
  rw [if_pos hc]

theorem c10_witness :
    ((1 : Nat) ≠ 0
      ∧ backup_mailbox_foreach db10 1 =
          db10.mail.mailboxes.filter (fun mb => mb.last_chunk_id = 1))
  ∧ backup_mailbox_foreach db10 0 = db10.mail.mailboxes :=
  ⟨⟨by decide, (c10_chunk_id_zero_selects_all db10).2.2.2.2 1 (by decide)⟩,
   (c10_chunk_id_zero_selects_all db10).1⟩


/-- C1 (amended): opening in NORMAL mode validates the latest chunk exactly as
claimed (greatest-id row; file_sha1 against the hash of the raw log before its
offset; decoded-member byte count against length and hash against data_sha1,
returning no handle on mismatch) when the open goes through `backup_open` or
through `backup_open_paths` with a derived (NULL) index path — but
`backup_open_paths` with an explicit index path returns the handle without any
checksum validation. -/
theorem c1_normal_open_validation (hash : Bytes → String) (f : Fs) (b : BackupH)
    (c : Chunk) (hopen : _open_internal f .normal = some b)
    (hlatest : latestChunk b.db.cur = some c) :
    (backup_open hash f = some b ↔ _validate_checksums hash b = true)
  ∧ backup_open_paths hash f false = backup_open hash f
  ∧ backup_open_paths hash f true = some b
  ∧ (_validate_checksums hash b = true ↔
      c.file_sha1 = hash ((rawLog b.fs).take c.offset)
      ∧ ∃ data, decodedAt b.fs.members c.offset = some data
          ∧ c.length = some data.length
          ∧ c.data_sha1 = some (hash data)) := by
  refine ⟨?_, rfl, ?_, ?_⟩
  · unfold backup_open
    rw [hopen]
    show (if _validate_checksums hash b = true then some b else none) = some b ↔ _
    by_cases hv : _validate_checksums hash b = true
    · rw [if_pos hv]
      simp [hv]
    · rw [if_neg hv]
      simp [hv]
  · unfold backup_open_paths
    rw [if_pos rfl]
    exact hopen
  · unfold _validate_checksums
    rw [hlatest]
    show (if c.file_sha1 ≠ hash ((rawLog b.fs).take c.offset) then false
          else match decodedAt b.fs.members c.offset with
          | none => false
          | some data =>
            if ¬ c.length = some data.length then false
            else decide (c.data_sha1 = some (hash data))) = true ↔ _
    by_cases h1 : c.file_sha1 = hash ((rawLog b.fs).take c.offset)
    · rw [if_neg (not_not_intro h1)]
      cases hdec : decodedAt b.fs.members c.offset with
      | none => simp [h1, hdec]
      | some data =>
        show (if ¬ c.length = some data.length then false
              else decide (c.data_sha1 = some (hash data))) = true ↔ _
        by_cases h2 : c.length = some data.length
        · rw [if_neg (not_not_intro h2)]
          simp [h1, h2, hdec]
        · rw [if_pos h2]
          simp [h1, h2, hdec]
    · rw [if_pos h1]
      simp [h1]

theorem c1_witness :
    (_open_internal f1 .normal = some bE ∧ latestChunk bE.db.cur = some cW)
  ∧ (backup_open_paths hashC f1 true = some bE
      ∧ (backup_open hashC f1 = some bE ↔ _validate_checksums hashC bE = true)) :=
  ⟨⟨rfl, rfl⟩,
   ⟨(c1_normal_open_validation hashC f1 bE cW rfl rfl).2.2.1,
    (c1_normal_open_validation hashC f1 bE cW rfl rfl).1⟩⟩

theorem c1_counterexample :
    backup_open_paths hashC f1 true = some bE
    ∧ _validate_checksums hashC bE = false
    ∧ backup_open hashC f1 = none := by
  refine ⟨by decide, by decide, by decide⟩

/-- C3: `backup_append_end` finalises the accumulated SHA-1 into data_sha1,
updates the chunk row inserted at session start with (length := wrote_bytes,
data_sha1), and commits the index transaction; and on a fresh empty store a
session started at ts=1700000000 with zero appends leaves a latest chunk with
offset 0, length the byte length of the header line
"# cyrus backup: chunk start 1700000000\r\n", file_sha1 the hash of the empty
byte string and data_sha1 the hash of that header line. -/
theorem c3_append_end_updates_and_commits (hash : Bytes → String)
    (compress : Bytes → Bytes) (b : BackupH) (st : AppendState)
    (h : b.append_state = some st) :
    (∃ b2, backup_append_end hash compress b = .ok b2
        ∧ b2.db.cur = updateChunk b.db.cur st.index_id st.wrote (hash st.sha_bytes)
        ∧ b2.db.snapshot = none
        ∧ b2.append_state = none)
  ∧ (match (backup_append_start hash b0fresh 1700000000) >>=
        (fun b1 => backup_append_end hash compress b1) with
     | .ok bE => latestChunk bE.db.cur
     | .error _ => none) =
      some ⟨1, 1700000000, 0,
            some (strB "# cyrus backup: chunk start 1700000000\r\n").length,
            hash [], some (hash (headerLine 1700000000))⟩ := by
  constructor
  · unfold backup_append_end
    rw [h]
    exact ⟨_, rfl, rfl, rfl, rfl⟩
  · rfl

theorem c3_witness :
    bW.append_state = some stW
    ∧ (∃ b2, backup_append_end hashC compressC bW = .ok b2
        ∧ b2.db.cur = updateChunk bW.db.cur stW.index_id stW.wrote (hashC stW.sha_bytes)
        ∧ b2.db.snapshot = none
        ∧ b2.append_state = none) :=
  ⟨rfl, (c3_append_end_updates_and_commits hashC compressC bW stW rfl).1⟩

/-- C4: for any append session (start, any appends, abort), the abort rolls the
"backup_index" transaction back, so the index contents after the abort equal
the contents immediately before `backup_append_start`, while the raw log keeps
the bytes written by the session (the pre-session log is a prefix of the
post-abort log). -/
theorem c4_abort_restores_pre_start_index (hash : Bytes → String)
    (compress : Bytes → Bytes) (applyIndex : MailState → Nat → Bytes → Nat → Nat → MailState)
    (b : BackupH) (now : Int) (items : List (Bytes × Int))
    (h : b.append_state = none) :
    ∃ b3, ((backup_append_start hash b now) >>=
        (fun b1 => (appendMany applyIndex b1 items) >>=
          (fun b2 => backup_append_abort compress b2))) = .ok b3
      ∧ b3.db.cur = b.db.cur
      ∧ ∃ t, rawLog b3.fs = rawLog b.fs ++ t := by
  have hstart : backup_append_start hash b now =
      .ok ⟨b.fs,
           ⟨(insertChunk b.db.cur now (rawLog b.fs).length (hash (rawLog b.fs))).1,
            some b.db.cur⟩,
           some ⟨(insertChunk b.db.cur now (rawLog b.fs).length (hash (rawLog b.fs))).2,
                 (headerLine now).length, headerLine now, false, false⟩,
           some ⟨now, []⟩, b.oldindex⟩ := by
    unfold backup_append_start _append_start
    rw [h]
    rfl
  rcases appendMany_ok applyIndex items
      ⟨b.fs,
       ⟨(insertChunk b.db.cur now (rawLog b.fs).length (hash (rawLog b.fs))).1,
        some b.db.cur⟩,
       some ⟨(insertChunk b.db.cur now (rawLog b.fs).length (hash (rawLog b.fs))).2,
             (headerLine now).length, headerLine now, false, false⟩,
       some ⟨now, []⟩, b.oldindex⟩
      ⟨(insertChunk b.db.cur now (rawLog b.fs).length (hash (rawLog b.fs))).2,
       (headerLine now).length, headerLine now, false, false⟩ rfl
    with ⟨b2, st2, hmany, hst2, hsnap2, hfs2⟩
  have hsn : b2.db.snapshot = some b.db.cur := hsnap2
  have hfs : b2.fs = b.fs := hfs2
  have hroll : sqldb_rollback b2.db = ⟨b.db.cur, none⟩ := by
    unfold sqldb_rollback
    rw [hsn]
  cases hpend : b2.pending with
  | none =>
    refine ⟨⟨b2.fs, sqldb_rollback b2.db, none, none, b2.oldindex⟩, ?_, ?_, ?_⟩
    · rw [hstart, bind_ok, hmany, bind_ok]
      unfold backup_append_abort
      rw [hst2, hpend]
    · show (sqldb_rollback b2.db).cur = b.db.cur
      rw [hroll]
    · refine ⟨[], ?_⟩
      show rawLog b2.fs = rawLog b.fs ++ []
      rw [hfs, List.append_nil]
  | some m =>
    refine ⟨⟨⟨b2.fs.members, b2.fs.trailing ++ compress (decodedBytes m),
              b2.fs.index, b2.fs.oldIndex⟩,
             sqldb_rollback b2.db, none, none, b2.oldindex⟩, ?_, ?_, ?_⟩
    · rw [hstart, bind_ok, hmany, bind_ok]
      unfold backup_append_abort
      rw [hst2, hpend]
    · show (sqldb_rollback b2.db).cur = b.db.cur
      rw [hroll]
    · refine ⟨compress (decodedBytes m), ?_⟩
      show rawCat b2.fs.members ++ (b2.fs.trailing ++ compress (decodedBytes m)) =
        rawLog b.fs ++ compress (decodedBytes m)
      rw [← List.append_assoc]
      rw [show rawCat b2.fs.members ++ b2.fs.trailing = rawLog b2.fs from rfl, hfs]

theorem c4_witness :
    b0fresh.append_state = none
    ∧ ∃ b3, ((backup_append_start hashC b0fresh 99) >>=
          (fun b1 => (appendMany applyC b1 [(strB "(q)", 100)]) >>=
            (fun b2 => backup_append_abort compressC b2))) = .ok b3
        ∧ b3.db.cur = b0fresh.db.cur
        ∧ ∃ t, rawLog b3.fs = rawLog b0fresh.fs ++ t :=
  ⟨rfl, c4_abort_restores_pre_start_index hashC compressC applyC b0fresh 99
      [(strB "(q)", 100)] rfl⟩


/-- C2 (amended): for a member whose first parsed line has timestamp `l0.ts`
and whose timestamps are monotone, the reindex pass ends the append session at
member EOF and commits a chunk row whose `length` is the byte length of the
SYNTHESISED header line (built from the first line's timestamp, not the
member's original header) plus the re-serialised APPLY lines, and whose
`data_sha1` is the hash of exactly those bytes — non-APPLY lines are parsed but
neither counted nor hashed, so for members containing such lines the committed
length and hash differ from the member's decoded size and hash. -/
theorem c2_reindex_member_commits_indexed_bytes (hash : Bytes → String)
    (compress : Bytes → Bytes)
    (applyIndex : MailState → Nat → Bytes → Nat → Nat → MailState)
    (prevTs : Option Int) (b : BackupH) (off : Nat) (hts : Int)
    (l0 : LogLine) (rest : List LogLine)
    (hstate : b.append_state = none)
    (hprev : ∀ p, prevTs = some p → p ≤ l0.ts)
    (hmono : ∀ l ∈ l0 :: rest, l0.ts ≤ l.ts) :
    reindexMember hash compress applyIndex prevTs b off ⟨hts, l0 :: rest⟩ =
      .ok (⟨b.fs,
            ⟨⟨b.db.cur.chunks ++
               [⟨maxChunkId b.db.cur.chunks + 1, l0.ts, off,
                 some (headerLine l0.ts ++ applyBytes (l0 :: rest)).length,
                 hash ((rawLog b.fs).take off),
                 some (hash (headerLine l0.ts ++ applyBytes (l0 :: rest)))⟩],
              mailFold applyIndex (maxChunkId b.db.cur.chunks + 1) b.db.cur.mail
                (headerLine l0.ts).length (l0 :: rest)⟩,
             none⟩,
            none, none, b.oldindex⟩,
           l0.ts) := by
  have hstart : _append_start b l0.ts off (hash ((rawLog b.fs).take off)) true false =
      .ok ⟨b.fs,
           ⟨⟨b.db.cur.chunks ++
              [⟨maxChunkId b.db.cur.chunks + 1, l0.ts, off, none,
                hash ((rawLog b.fs).take off), none⟩],
             b.db.cur.mail⟩,
            some b.db.cur⟩,
           some ⟨maxChunkId b.db.cur.chunks + 1, (headerLine l0.ts).length,
                 headerLine l0.ts, true, false⟩,
           b.pending, b.oldindex⟩ := by
    unfold _append_start
    rw [hstate]
    rfl
  have hgo :
      (do
        let b1 ← _append_start b l0.ts off (hash ((rawLog b.fs).take off)) true false
        let b3 ← reindexLines applyIndex b1 l0.ts (l0 :: rest)
        let b4 ← backup_append_end hash compress b3
        pure (b4, l0.ts) : Except String (BackupH × Int)) =
      .ok (⟨b.fs,
            ⟨⟨b.db.cur.chunks ++
               [⟨maxChunkId b.db.cur.chunks + 1, l0.ts, off,
                 some (headerLine l0.ts ++ applyBytes (l0 :: rest)).length,
                 hash ((rawLog b.fs).take off),
                 some (hash (headerLine l0.ts ++ applyBytes (l0 :: rest)))⟩],
              mailFold applyIndex (maxChunkId b.db.cur.chunks + 1) b.db.cur.mail
                (headerLine l0.ts).length (l0 :: rest)⟩,
             none⟩,
            none, none, b.oldindex⟩,
           l0.ts) := by
    rw [show (do
        let b1 ← _append_start b l0.ts off (hash ((rawLog b.fs).take off)) true false
        let b3 ← reindexLines applyIndex b1 l0.ts (l0 :: rest)
        let b4 ← backup_append_end hash compress b3
        pure (b4, l0.ts) : Except String (BackupH × Int)) =
      (_append_start b l0.ts off (hash ((rawLog b.fs).take off)) true false) >>=
        (fun b1 => (reindexLines applyIndex b1 l0.ts (l0 :: rest)) >>=
          (fun b3 => (backup_append_end hash compress b3) >>=
            (fun b4 => pure (b4, l0.ts)))) from rfl]
    rw [hstart, bind_ok]
    rw [reindexLines_ok applyIndex l0.ts (l0 :: rest) _ _ rfl rfl hmono, bind_ok]
    have hend : backup_append_end hash compress
        ⟨b.fs,
         ⟨⟨b.db.cur.chunks ++
            [⟨maxChunkId b.db.cur.chunks + 1, l0.ts, off, none,
              hash ((rawLog b.fs).take off), none⟩],
           mailFold applyIndex (maxChunkId b.db.cur.chunks + 1) b.db.cur.mail
             (headerLine l0.ts).length (l0 :: rest)⟩,
          some b.db.cur⟩,
         some ⟨maxChunkId b.db.cur.chunks + 1,
               (headerLine l0.ts).length + (applyBytes (l0 :: rest)).length,
               headerLine l0.ts ++ applyBytes (l0 :: rest), true, false⟩,
         b.pending, b.oldindex⟩ =
        .ok ⟨b.fs,
             ⟨updateChunk
                ⟨b.db.cur.chunks ++
                  [⟨maxChunkId b.db.cur.chunks + 1, l0.ts, off, none,
                    hash ((rawLog b.fs).take off), none⟩],
                 mailFold applyIndex (maxChunkId b.db.cur.chunks + 1) b.db.cur.mail
                   (headerLine l0.ts).length (l0 :: rest)⟩
                (maxChunkId b.db.cur.chunks + 1)
                ((headerLine l0.ts).length + (applyBytes (l0 :: rest)).length)
                (hash (headerLine l0.ts ++ applyBytes (l0 :: rest))),
              none⟩,
             none, none, b.oldindex⟩ := by
      unfold backup_append_end
      rfl
    rw [hend, bind_ok]
    rw [updateChunk_append _ _ _ _ _ _ _ _
      (fun cc hcc => Nat.ne_of_lt (Nat.lt_succ_of_le (le_maxChunkId hcc)))]
    rw [show (headerLine l0.ts ++ applyBytes (l0 :: rest)).length =
          (headerLine l0.ts).length + (applyBytes (l0 :: rest)).length from
        List.length_append _ _]
    rfl
  cases prevTs with
  | none => exact hgo
  | some p =>
    rw [show reindexMember hash compress applyIndex (some p) b off ⟨hts, l0 :: rest⟩ =
          (if p > l0.ts then Except.error "member timestamp older than previous"
           else (do
            let b1 ← _append_start b l0.ts off (hash ((rawLog b.fs).take off)) true false
            let b3 ← reindexLines applyIndex b1 l0.ts (l0 :: rest)
            let b4 ← backup_append_end hash compress b3
            pure (b4, l0.ts))) from rfl,
        if_neg (not_lt.mpr (hprev p rfl))]
    exact hgo

theorem c2_witness :
    (b0fresh.append_state = none
      ∧ (∀ l ∈ [(⟨5, "APPLY", strB "(a)"⟩ : LogLine)], (5 : Int) ≤ l.ts))
  ∧ reindexMember hashC compressC applyC none b0fresh 0
      ⟨5, [⟨5, "APPLY", strB "(a)"⟩]⟩ =
    .ok (⟨b0fresh.fs,
          ⟨⟨b0fresh.db.cur.chunks ++
             [⟨maxChunkId b0fresh.db.cur.chunks + 1, 5, 0,
               some (headerLine 5 ++ applyBytes [⟨5, "APPLY", strB "(a)"⟩]).length,
               hashC ((rawLog b0fresh.fs).take 0),
               some (hashC (headerLine 5 ++ applyBytes [⟨5, "APPLY", strB "(a)"⟩]))⟩],
            mailFold applyC (maxChunkId b0fresh.db.cur.chunks + 1) b0fresh.db.cur.mail
              (headerLine 5).length [⟨5, "APPLY", strB "(a)"⟩]⟩,
           none⟩,
          none, none, b0fresh.oldindex⟩,
         5) :=
  ⟨⟨rfl, by decide⟩,
   c2_reindex_member_commits_indexed_bytes hashC compressC applyC none b0fresh 0 5
     ⟨5, "APPLY", strB "(a)"⟩ [] rfl
     (fun p hp => absurd hp (by simp))
     (by decide)⟩

theorem c2_counterexample :
    (reindexedChunks (backup_reindex hashC compressC applyC f2 true)).map
      (fun c => c.length) = [some 31]
    ∧ (decodedBytes m2).length = 43
    ∧ (31 : Nat) ≠ 43 := by
  refine ⟨by decide, by decide, by decide⟩

/-- C6 (amended): reindex rejects a member whose FIRST parsed line's timestamp
is older than the previous member's first-line timestamp, and rejects a line
whose timestamp is older than the member's own first-line timestamp (the
`member_ts` recorded once per member; the original "#" header line is skipped
by the parser and its timestamp is never compared).  A line older than an
earlier non-first line but not older than the first line is NOT rejected. -/
theorem c6_timestamp_order_checks (hash : Bytes → String)
    (compress : Bytes → Bytes)
    (applyIndex : MailState → Nat → Bytes → Nat → Nat → MailState) :
    (∀ (p : Int) (b : BackupH) (off : Nat) (hts : Int) (l0 : LogLine)
       (rest : List LogLine), p > l0.ts →
       reindexMember hash compress applyIndex (some p) b off ⟨hts, l0 :: rest⟩ =
         .error "member timestamp older than previous")
  ∧ (∀ (prevTs : Option Int) (b : BackupH) (off : Nat) (hts : Int) (l0 : LogLine)
       (g : List LogLine) (bad : LogLine) (tl : List LogLine),
       b.append_state = none →
       (∀ p, prevTs = some p → p ≤ l0.ts) →
       (∀ l ∈ l0 :: g, l0.ts ≤ l.ts) →
       bad.ts < l0.ts →
       reindexMember hash compress applyIndex prevTs b off
           ⟨hts, l0 :: (g ++ bad :: tl)⟩ =
         .error "line timestamp older than previous") := by
  constructor
  · intro p b off hts l0 rest hp
    rw [show reindexMember hash compress applyIndex (some p) b off ⟨hts, l0 :: rest⟩ =
          (if p > l0.ts then Except.error "member timestamp older than previous"
           else (do
            let b1 ← _append_start b l0.ts off (hash ((rawLog b.fs).take off)) true false
            let b3 ← reindexLines applyIndex b1 l0.ts (l0 :: rest)
            let b4 ← backup_append_end hash compress b3
            pure (b4, l0.ts))) from rfl,
        if_pos hp]
  · intro prevTs b off hts l0 g bad tl hstate hprev hmono hbad
    have hstart : _append_start b l0.ts off (hash ((rawLog b.fs).take off)) true false =
        .ok ⟨b.fs,
             ⟨⟨b.db.cur.chunks ++
                [⟨maxChunkId b.db.cur.chunks + 1, l0.ts, off, none,
                  hash ((rawLog b.fs).take off), none⟩],
               b.db.cur.mail⟩,
              some b.db.cur⟩,
             some ⟨maxChunkId b.db.cur.chunks + 1, (headerLine l0.ts).length,
                   headerLine l0.ts, true, false⟩,
             b.pending, b.oldindex⟩ := by
      unfold _append_start
      rw [hstate]
      rfl
    have hgo :
        (do
          let b1 ← _append_start b l0.ts off (hash ((rawLog b.fs).take off)) true false
          let b3 ← reindexLines applyIndex b1 l0.ts (l0 :: (g ++ bad :: tl))
          let b4 ← backup_append_end hash compress b3
          pure (b4, l0.ts) : Except String (BackupH × Int)) =
        .error "line timestamp older than previous" := by
      rw [show (do
          let b1 ← _append_start b l0.ts off (hash ((rawLog b.fs).take off)) true false
          let b3 ← reindexLines applyIndex b1 l0.ts (l0 :: (g ++ bad :: tl))
          let b4 ← backup_append_end hash compress b3
          pure (b4, l0.ts) : Except String (BackupH × Int)) =
        (_append_start b l0.ts off (hash ((rawLog b.fs).take off)) true false) >>=
          (fun b1 => (reindexLines applyIndex b1 l0.ts (l0 :: (g ++ bad :: tl))) >>=
            (fun b3 => (backup_append_end hash compress b3) >>=
              (fun b4 => pure (b4, l0.ts)))) from rfl]
      rw [hstart, bind_ok]
      rw [show (l0 :: (g ++ bad :: tl)) = (l0 :: g) ++ bad :: tl from rfl]
      rw [reindexLines_err applyIndex l0.ts bad hbad tl (l0 :: g) _ _ rfl rfl hmono]
      rfl
    cases prevTs with
    | none => exact hgo
    | some p =>
      rw [show reindexMember hash compress applyIndex (some p) b off
            ⟨hts, l0 :: (g ++ bad :: tl)⟩ =
            (if p > l0.ts then Except.error "member timestamp older than previous"
             else (do
              let b1 ← _append_start b l0.ts off (hash ((rawLog b.fs).take off)) true false
              let b3 ← reindexLines applyIndex b1 l0.ts (l0 :: (g ++ bad :: tl))
              let b4 ← backup_append_end hash compress b3
              pure (b4, l0.ts))) from rfl,
          if_neg (not_lt.mpr (hprev p rfl))]
      exact hgo

theorem c6_witness :
    ((10 : Int) > 5
      ∧ reindexMember hashC compressC applyC (some 10) b0fresh 0
          ⟨5, [⟨5, "APPLY", strB "(a)"⟩]⟩ =
        .error "member timestamp older than previous")
  ∧ (b0fresh.append_state = none
      ∧ (3 : Int) < 5
      ∧ reindexMember hashC compressC applyC none b0fresh 0
          ⟨5, [⟨5, "APPLY", strB "(a)"⟩, ⟨3, "APPLY", strB "(b)"⟩]⟩ =
        .error "line timestamp older than previous") :=
  ⟨⟨by decide,
    (c6_timestamp_order_checks hashC compressC applyC).1 10 b0fresh 0 5
      ⟨5, "APPLY", strB "(a)"⟩ [] (by decide)⟩,
   ⟨rfl, by decide,
    (c6_timestamp_order_checks hashC compressC applyC).2 none b0fresh 0 5
      ⟨5, "APPLY", strB "(a)"⟩ [] ⟨3, "APPLY", strB "(b)"⟩ [] rfl
      (fun p hp => absurd hp (by simp)) (by decide) (by decide)⟩⟩

theorem c6_counterexample :
    (backup_reindex hashC compressC applyC f6 true).isOk = true
    ∧ (reindexedChunks (backup_reindex hashC compressC applyC f6 true)).length = 1 := by
  refine ⟨by decide, by decide⟩

end CyrusBackup